import Mathlib

/-!
Verification of the `myjson` single-header JSON library.

The embedding below is a shallow model of the current version of `myjson.h`
(the complete revision that defines `get_to`, `pop`, `remove` and `json_init`,
i.e. the one the test driver `myjson_test.cpp` compiles against).

Modelling conventions:
  * `std::string` is modelled as `List Char`; `int64_t` as `Int` (with the
    64-bit range imposed where the C++ type guarantees it); `double` as `ℚ`
    (every finite double is a rational; the claims under study never depend
    on rounding of binary floating point).
  * The cursor-based recursive-descent parser (`json parse(const std::string&,
    size_t&)`) is modelled as a fuel-indexed function on the full character
    list and a cursor index, returning the value plus the new cursor.
    Running out of fuel models non-termination of the C++ code and is a
    distinct outcome (`PErr.outOfFuel`) from a thrown parse error.
  * Thrown `std::runtime_error`s are modelled with `Except`/`Option` error
    values, classified by the spec's taxonomy (`TypeAccessError`,
    `IndexOutOfRangeError`, `ParseError`).  Mutating members are modelled in
    state-passing style: they return the post-call state of the object
    together with the error, if one was thrown.  A C++ operation whose
    behaviour is undefined (``vector::pop_back`` on an empty vector) is
    marked by the distinct outcome `CppError.undefinedBeh`.
-/

namespace Myjson

/-- A whitespace character in the sense of `std::regex` `\s` (default locale):
space, tab, newline, carriage return, vertical tab, form feed. -/
def isWS (c : Char) : Bool :=
  c = ' ' || c = '\t' || c = '\n' || c = '\r' || c = '\x0b' || c = '\x0c'

/-- Model of `remove_whitespace`: `std::regex_replace(str, std::regex("\\s+"), "")`
replaces every maximal run of whitespace by the empty string, i.e. it deletes
every whitespace character of the input. -/
def strip (s : List Char) : List Char := s.filter (fun c => !isWS c)

/-- Model of `std::isdigit` (ASCII `'0'..'9'`). -/
def isDigitC (c : Char) : Bool := decide (48 ≤ c.toNat ∧ c.toNat ≤ 57)

/-- The character class scanned over by `parse_number`:
`std::isdigit(c) || c == '.' || c == 'e' || c == 'E' || c == '+' || c == '-'`. -/
def isNumChar (c : Char) : Bool :=
  isDigitC c || c = '.' || c = 'e' || c = 'E' || c = '+' || c = '-'

/-- Lexicographic (bytewise) comparison of strings: the order used by
`std::map<std::string, json>` through `std::less<std::string>`. -/
def lexLt : List Char → List Char → Bool
  | [], [] => false
  | [], _ :: _ => true
  | _ :: _, [] => false
  | a :: as, b :: bs => if a < b then true else if b < a then false else lexLt as bs

/-- The ASCII digit character of a value below ten (`'0' + d`). -/
def digitChar (m : Nat) : Char :=
  (['0', '1', '2', '3', '4', '5', '6', '7', '8', '9']).getD m '0'

/-- Fuel-indexed digit renderer (the fuel only bounds the recursion depth;
any fuel above the argument is enough). -/
def natToCharsAux : Nat → Nat → List Char
  | 0, _ => []
  | fuel + 1, n =>
    if n < 10 then [digitChar n]
    else natToCharsAux fuel (n / 10) ++ [digitChar (n % 10)]

/-- Decimal digit string of a natural number, most significant digit first:
the digit-producing core of `std::to_string`. -/
def natToChars (n : Nat) : List Char := natToCharsAux (n + 1) n

/-- Model of `std::to_string(int64_t)`: optional minus sign followed by the
decimal digits of the absolute value. -/
def intToChars (n : Int) : List Char :=
  if n < 0 then '-' :: natToChars n.natAbs else natToChars n.toNat

/-- Value of a string of decimal digits (most significant first). -/
def digitsVal (ds : List Char) : Nat :=
  ds.foldl (fun a c => a * 10 + (c.toNat - 48)) 0

/-- Model of `std::stoll`: optional sign, then a nonempty run of decimal
digits (trailing non-digit characters are ignored, as `stoll` stops at the
first non-digit); `none` models the thrown `std::invalid_argument` (no
digits) or `std::out_of_range` (value outside `int64_t`). -/
def stollM (cs : List Char) : Option Int :=
  let sgn : Int := if cs.headD '\x00' = '-' then -1 else 1
  let r := if cs.headD '\x00' = '-' || cs.headD '\x00' = '+' then cs.drop 1 else cs
  let ds := r.takeWhile isDigitC
  if ds.isEmpty then none
  else
    let v : Int := sgn * (digitsVal ds : Int)
    if -(2 ^ 63) ≤ v ∧ v ≤ 2 ^ 63 - 1 then some v else none

/-- `10 ^ e` for an integer exponent, as a rational. -/
def qpow10 (e : Int) : ℚ :=
  if 0 ≤ e then (10 : ℚ) ^ e.toNat else ((10 : ℚ) ^ (-e).toNat)⁻¹

/-- Model of `std::stod` on the character classes reachable from
`parse_number` (sign, digits, decimal point, exponent): parses the longest
valid floating literal prefix; `none` models the thrown
`std::invalid_argument` when no digits are present.  The value is exact
(`ℚ`); the claims under study never depend on double rounding. -/
def stodM (cs : List Char) : Option ℚ :=
  let sgn : ℚ := if cs.headD '\x00' = '-' then -1 else 1
  let r1 := if cs.headD '\x00' = '-' || cs.headD '\x00' = '+' then cs.drop 1 else cs
  let ip := r1.takeWhile isDigitC
  let r2 := r1.drop ip.length
  let hasDot := r2.headD '\x00' = '.'
  let fp := if hasDot then (r2.drop 1).takeWhile isDigitC else []
  let r3 := if hasDot then (r2.drop 1).drop fp.length else r2
  if ip.isEmpty && fp.isEmpty then none
  else
    let ex : Int :=
      if r3.headD '\x00' = 'e' || r3.headD '\x00' = 'E' then
        let t := r3.drop 1
        let esgn : Int := if t.headD '\x00' = '-' then -1 else 1
        let t2 := if t.headD '\x00' = '-' || t.headD '\x00' = '+' then t.drop 1 else t
        let eds := t2.takeWhile isDigitC
        if eds.isEmpty then 0 else esgn * (digitsVal eds : Int)
      else 0
    some (sgn * ((digitsVal ip : ℚ) + (digitsVal fp : ℚ) / (10 : ℚ) ^ fp.length) * qpow10 ex)

/-- Truncation of a rational toward zero: the semantics of
`static_cast<int64_t>(double)` (for in-range values). -/
def truncQ (q : ℚ) : Int := q.num.tdiv (q.den : Int)

/-- The JSON value: model of `class json`, i.e. the pair of the tag
`json::Type` and the payload
`std::variant<_null, _bool, _int, _float, _string, _array, _object>`.
`_object` is `std::map<std::string, json>`, modelled as an association list
that the operations keep sorted by `lexLt` with pairwise distinct keys
(the `std::map` representation invariant). -/
inductive Value where
  | null : Value
  | bool : Bool → Value
  | int : Int → Value
  | float : ℚ → Value
  | str : List Char → Value
  | arr : List Value → Value
  | obj : List (List Char × Value) → Value

/-- The tag: model of `enum class json::Type`. -/
inductive Jtype where
  | tnull | tbool | tint | tfloat | tstring | tarray | tobject
  deriving DecidableEq

/-- The `type` field of a `json` object (always consistent with the variant
alternative actually stored, an invariant of every constructor). -/
def typeOf : Value → Jtype
  | .null => .tnull
  | .bool _ => .tbool
  | .int _ => .tint
  | .float _ => .tfloat
  | .str _ => .tstring
  | .arr _ => .tarray
  | .obj _ => .tobject

/-- `std::map::find`-style lookup in the association list. -/
def lookupKey : List (List Char × Value) → List Char → Option Value
  | [], _ => none
  | (k', v) :: t, k => if k' = k then some v else lookupKey t k

/-- Ordered insert-or-assign: the effect of `std::map::operator[]` followed
by assignment (insert a fresh key at its ordered position, overwrite the
mapped value of an existing key). -/
def insertSorted : List (List Char × Value) → List Char → Value → List (List Char × Value)
  | [], k, v => [(k, v)]
  | (k', v') :: t, k, v =>
    if lexLt k k' then (k, v) :: (k', v') :: t
    else if lexLt k' k then (k', v') :: insertSorted t k v
    else (k, v) :: t

/-- `std::map::erase(key)`: removes the entry with the given key, if any. -/
def eraseKey (kvs : List (List Char × Value)) (k : List Char) : List (List Char × Value) :=
  kvs.filter (fun kv => decide (kv.1 ≠ k))

/-- Keys strictly ascending in `lexLt`: the `std::map` ordering invariant. -/
def keysSorted : List (List Char × Value) → Bool
  | [] => true
  | (k, _) :: t => t.all (fun kv => lexLt k kv.1) && keysSorted t

/-- A string character admitted by claim C1's round-trip hypothesis:
not a double quote, not a backslash, not whitespace. -/
def strCharOK (c : Char) : Bool := !(c = '\"') && !(c = '\\') && !isWS c

mutual
/-- The hypothesis class of the round-trip claim: values built only from
`Null`, `Bool`, `Int` (64-bit range), `Array`/`Object` of such values, and
strings (including object keys) free of `"`, `\` and whitespace; objects
carry the `std::map` sortedness invariant. -/
def Goodb : Value → Bool
  | .null => true
  | .bool _ => true
  | .int n => decide (-(2 ^ 63) ≤ n ∧ n < 2 ^ 63)
  | .float _ => false
  | .str s => s.all strCharOK
  | .arr es => GoodbL es
  | .obj kvs => keysSorted kvs && GoodbO kvs

def GoodbL : List Value → Bool
  | [] => true
  | v :: t => Goodb v && GoodbL t

def GoodbO : List (List Char × Value) → Bool
  | [] => true
  | (k, v) :: t => k.all strCharOK && Goodb v && GoodbO t
end

/-- Model of `std::to_string(double)`, which renders in fixed notation with
six fractional digits (the exact tie-rounding of the C library is immaterial
to every claim under study; round-half-up is used here). -/
def floatToChars (q : ℚ) : List Char :=
  let n : Int := ⌊q * 1000000 + 1 / 2⌋
  let m := n.natAbs
  let fs := natToChars (m % 1000000)
  (if n < 0 then ['-'] else []) ++ natToChars (m / 1000000)
    ++ '.' :: (List.replicate (6 - fs.length) '0' ++ fs)

mutual
/-- Model of `json::dump()`.  The array case appends each element's dump
followed by `", "` when it is not the last; the object case walks the
(sorted) map appending `"key": value` pairs separated by `", "`. -/
def dumpL : Value → List Char
  | .null => ['n', 'u', 'l', 'l']
  | .bool b => if b then ['t', 'r', 'u', 'e'] else ['f', 'a', 'l', 's', 'e']
  | .int n => intToChars n
  | .float q => floatToChars q
  | .str s => '\"' :: s ++ ['\"']
  | .arr es => '[' :: dumpA es ++ [']']
  | .obj kvs => '{' :: dumpO kvs ++ ['}']

def dumpA : List Value → List Char
  | [] => []
  | [v] => dumpL v
  | v :: w :: t => dumpL v ++ ',' :: ' ' :: dumpA (w :: t)

def dumpO : List (List Char × Value) → List Char
  | [] => []
  | [(k, v)] => '\"' :: k ++ '\"' :: ':' :: ' ' :: dumpL v
  | (k, v) :: p :: t =>
    ('\"' :: k ++ '\"' :: ':' :: ' ' :: dumpL v) ++ ',' :: ' ' :: dumpO (p :: t)
end

/-- `json::dump()` as a `String`. -/
def dump (v : Value) : String := String.mk (dumpL v)

mutual
/-- Whitespace-free image of `dumpL` (what `remove_whitespace` leaves of a
dump whose strings contain no whitespace); proof-internal normal form. -/
def cdump : Value → List Char
  | .null => ['n', 'u', 'l', 'l']
  | .bool b => if b then ['t', 'r', 'u', 'e'] else ['f', 'a', 'l', 's', 'e']
  | .int n => intToChars n
  | .float q => strip (floatToChars q)
  | .str s => '\"' :: s ++ ['\"']
  | .arr es => '[' :: cdumpA es ++ [']']
  | .obj kvs => '{' :: cdumpO kvs ++ ['}']

def cdumpA : List Value → List Char
  | [] => []
  | [v] => cdump v
  | v :: w :: t => cdump v ++ ',' :: cdumpA (w :: t)

def cdumpO : List (List Char × Value) → List Char
  | [] => []
  | [(k, v)] => '\"' :: k ++ '\"' :: ':' :: cdump v
  | (k, v) :: p :: t => ('\"' :: k ++ '\"' :: ':' :: cdump v) ++ ',' :: cdumpO (p :: t)
end

mutual
/-- Fuel sufficient for the parser to reconsume a dumped value. -/
def cost : Value → Nat
  | .null => 1
  | .bool _ => 1
  | .int _ => 1
  | .float _ => 1
  | .str _ => 1
  | .arr es => 1 + costA es
  | .obj kvs => 1 + costO kvs

def costA : List Value → Nat
  | [] => 1
  | v :: t => 1 + cost v + costA t

def costO : List (List Char × Value) → Nat
  | [] => 1
  | (_, v) :: t => 2 + cost v + costO t
end

/-- Parse errors: `PErr.parseError` models a thrown
`std::runtime_error` (the code wraps each nested failure with the position of
the enclosing `parse` call; the wrapping changes only the message text).
`PErr.outOfFuel` models non-termination (unbounded recursion) of the C++
code, which the fuel-indexed model cuts off. -/
inductive PErr where
  | parseError | outOfFuel
  deriving DecidableEq

/-- `parse_null`: `str.substr(index, 4) == "null"` advances by 4. -/
def parse_null (s : List Char) (i : Nat) : Except PErr (Value × Nat) :=
  if (s.drop i).take 4 = ['n', 'u', 'l', 'l'] then .ok (.null, i + 4)
  else .error .parseError

/-- `parse_true`: `str.substr(index, 4) == "true"` advances by 4. -/
def parse_true (s : List Char) (i : Nat) : Except PErr (Value × Nat) :=
  if (s.drop i).take 4 = ['t', 'r', 'u', 'e'] then .ok (.bool true, i + 4)
  else .error .parseError

/-- `parse_false`: `str.substr(index, 5) == "false"` advances by 5. -/
def parse_false (s : List Char) (i : Nat) : Except PErr (Value × Nat) :=
  if (s.drop i).take 5 = ['f', 'a', 'l', 's', 'e'] then .ok (.bool false, i + 5)
  else .error .parseError

/-- `parse_string`: `start = index + 1; end = str.find('"', start);
index = end + 1; return json(str.substr(start, end - start))`.
When no closing quote exists, `find` returns `npos`; `substr(start, npos -
start)` then takes everything to the end of the text and `index = npos + 1`
wraps to `0` in `size_t` arithmetic.  No exception is thrown on this path. -/
def parse_string (s : List Char) (i : Nat) : Value × Nat :=
  let start := i + 1
  match (s.drop start).findIdx? (fun c => c = '\"') with
  | some k => (.str ((s.drop start).take k), start + k + 1)
  | none => (.str (s.drop start), 0)

/-- `parse_number`: scan forward over `isNumChar` characters; if the scanned
substring contains `.`, `e` or `E` convert with `stod` (tag `Float`),
otherwise with `stoll` (tag `Int`); a conversion failure throws. -/
def parse_number (s : List Char) (i : Nat) : Except PErr (Value × Nat) :=
  let sub := (s.drop i).takeWhile isNumChar
  let j := i + sub.length
  if sub.any (fun c => c = '.') || sub.any (fun c => c = 'e' || c = 'E') then
    match stodM sub with
    | some q => .ok (.float q, j)
    | none => .error .parseError
  else
    match stollM sub with
    | some n => .ok (.int n, j)
    | none => .error .parseError

mutual
/-- The cursor parser `json parse(const std::string& str, size_t& index)`:
dispatch on `str[index]` (which reads `'\0'` at the end of the string).
An unknown leading character throws. -/
def parseV : Nat → List Char → Nat → Except PErr (Value × Nat)
  | 0, _, _ => .error .outOfFuel
  | fuel + 1, s, i =>
    let c := s.getD i '\x00'
    if c = 'n' then parse_null s i
    else if c = 't' then parse_true s i
    else if c = 'f' then parse_false s i
    else if c = '\"' then .ok (parse_string s i)
    else if c = '[' then parse_array_loop fuel s (i + 1) []
    else if c = '{' then parse_object_loop fuel s (i + 1) []
    else if isDigitC c || c = '-' then parse_number s i
    else .error .parseError

/-- The loop body of `parse_array`: while `str[index] != ']'`, parse an
element, then consume one `,` if present; finally step past the `]`. -/
def parse_array_loop : Nat → List Char → Nat → List Value → Except PErr (Value × Nat)
  | 0, _, _, _ => .error .outOfFuel
  | fuel + 1, s, i, acc =>
    if s.getD i '\x00' = ']' then .ok (.arr acc, i + 1)
    else
      match parseV fuel s i with
      | .error e => .error e
      | .ok (v, i1) =>
        let i2 := if s.getD i1 '\x00' = ',' then i1 + 1 else i1
        parse_array_loop fuel s i2 (acc ++ [v])

/-- The loop body of `parse_object`: while `str[index] != '}'`, parse a value
that must be a string (the key — `std::get<std::string>` throws otherwise),
skip one character (the `:`, unchecked), parse the member value, store it
with `obj[key] = value` (insert-or-assign), then consume one `,` if present;
finally step past the `}`. -/
def parse_object_loop : Nat → List Char → Nat → List (List Char × Value) →
    Except PErr (Value × Nat)
  | 0, _, _, _ => .error .outOfFuel
  | fuel + 1, s, i, acc =>
    if s.getD i '\x00' = '}' then .ok (.obj acc, i + 1)
    else
      match parseV fuel s i with
      | .error e => .error e
      | .ok (kj, i1) =>
        match kj with
        | .str k =>
          match parseV fuel s (i1 + 1) with
          | .error e => .error e
          | .ok (v, i2) =>
            let i3 := if s.getD i2 '\x00' = ',' then i2 + 1 else i2
            parse_object_loop fuel s i3 (insertSorted acc k v)
        | _ => .error .parseError
end

/-- The top-level entry point `json parse(const std::string& str)`: an empty
text yields `Null`; otherwise strip all whitespace and parse from offset 0,
returning the parsed value and ignoring whatever follows the final cursor. -/
def parse (fuel : Nat) (str : List Char) : Except PErr Value :=
  if str.isEmpty then .ok .null
  else
    match parseV fuel (strip str) 0 with
    | .ok (v, _) => .ok v
    | .error e => .error e

/-- `json parse(const char* str)` / `make_json`: parse from a string literal. -/
def parseStr (fuel : Nat) (s : String) : Except PErr Value := parse fuel s.data

/-- The cursor parser consumes exactly the compact dump of `v` and returns
`v`, wherever that dump occurs in the text, provided the following text does
not begin with a number-class character (which could extend a numeric
literal).  This is the induction form of the round-trip statement. -/
def PSpec (v : Value) : Prop :=
  ∀ fuel s i rest, cost v ≤ fuel → s.drop i = cdump v ++ rest →
    isNumChar (rest.headD '\x00') = false →
    parseV fuel s i = Except.ok (v, i + (cdump v).length)

/-!
### Accessors: the `from_json` overloads behind `get<T>()` / `get_to<T>(ref)`

`get_to<T>(value)` is exactly `from_json(*this, value)`; `get<T>()` declares a
default-initialised local and runs `from_json` on it.  Each overload below
maps the json argument and the previous contents of the output reference to
the new contents of that reference.
-/

/-- `from_json(const json&, bool&)`: assigns only when the tag is `_bool`. -/
def from_json_bool (j : Value) (value : Bool) : Bool :=
  match j with
  | .bool b => b
  | _ => value

/-- `from_json(const json&, int64_t&)`: assigns the stored integer when the
tag is `_int`, and `static_cast<int64_t>` of the stored double (truncation
toward zero) when the tag is `_float`; any other tag leaves the output
untouched. -/
def from_json_int64 (j : Value) (value : Int) : Int :=
  match j with
  | .int n => n
  | .float q => truncQ q
  | _ => value

/-- `from_json(const json&, double&)`: assigns the stored double when the tag
is `_float`, and `static_cast<double>` of the stored integer when the tag is
`_int`; any other tag leaves the output untouched. -/
def from_json_double (j : Value) (value : ℚ) : ℚ :=
  match j with
  | .float q => q
  | .int n => (n : ℚ)
  | _ => value

/-- `from_json(const json&, std::string&)`: assigns only when the tag is
`_string`. -/
def from_json_string (j : Value) (value : List Char) : List Char :=
  match j with
  | .str s => s
  | _ => value

/-- `from_json(const json&, _array&)`: assigns only when the tag is `_array`. -/
def from_json_array (j : Value) (value : List Value) : List Value :=
  match j with
  | .arr es => es
  | _ => value

/-- `from_json(const json&, _object&)`: assigns only when the tag is
`_object`. -/
def from_json_object (j : Value) (value : List (List Char × Value)) :
    List (List Char × Value) :=
  match j with
  | .obj kvs => kvs
  | _ => value

/-!
### Mutators, in state-passing style

Each model returns the state of the `json` object after the call together
with the error thrown, if any.  In the C++ every throw happens before any
write to `type`/`data`, so on the throwing paths the post-state equals the
pre-state.
-/

/-- Error taxonomy of the spec for the thrown `std::runtime_error`s, plus a
marker for C++ undefined behaviour (which throws nothing). -/
inductive CppError where
  | typeAccess | indexOutOfRange | keyNotFound | undefinedBeh
  deriving DecidableEq

/-- `json::push(value)`: appends to the `_array` payload, or throws
`"At push(): json is not an array"` (TypeAccessError) without mutating. -/
def pushS (v : Value) (x : Value) : Value × Option CppError :=
  match v with
  | .arr es => (.arr (es ++ [x]), none)
  | w => (w, some .typeAccess)

/-- `json::pop()`: calls `vector::pop_back` on the `_array` payload — with no
emptiness check, so on an empty array this is undefined behaviour (modelled
as the `undefinedBeh` marker; no exception is thrown there, and the
post-state is not defined by the source, recorded here as the pre-state) —
or throws `"At pop(): json is not an array"` (TypeAccessError). -/
def popS (v : Value) : Value × Option CppError :=
  match v with
  | .arr [] => (.arr [], some .undefinedBeh)
  | .arr es => (.arr es.dropLast, none)
  | w => (w, some .typeAccess)

/-- `json::remove(key)`: erases the key from the `_object` payload (a no-op
for an absent key), or throws `"At remove(): json is not an object"`
(TypeAccessError). -/
def removeS (v : Value) (k : List Char) : Value × Option CppError :=
  match v with
  | .obj kvs => (.obj (eraseKey kvs k), none)
  | w => (w, some .typeAccess)

/-- Mutable `json::operator[](const std::string& key)`: throws
TypeAccessError if not an object; otherwise `std::map::operator[]`
default-inserts a `json()` (type `_null`) under an absent key and returns a
reference to the mapped child.  The model returns the post-call state and
the value the returned reference designates. -/
def objIndexS (v : Value) (k : List Char) : Value × Except CppError Value :=
  match v with
  | .obj kvs =>
    match lookupKey kvs k with
    | some c => (.obj kvs, .ok c)
    | none => (.obj (insertSorted kvs k .null), .ok .null)
  | w => (w, .error .typeAccess)

/-- The composite statement `v[key] = x`: mutable `operator[](key)` followed
by assignment through the returned reference (`operator=` on the mapped
slot).  Net effect on an object: insert-or-assign. -/
def objIndexAssign (v : Value) (k : List Char) (x : Value) : Value × Option CppError :=
  match v with
  | .obj kvs => (.obj (insertSorted kvs k x), none)
  | w => (w, some .typeAccess)

/-- Mutable `json::operator[](size_t index)`: throws TypeAccessError if not
an array, IndexOutOfRangeError if `index >= size()`; otherwise returns a
reference to the element inside the live `_array` payload (this revision
does not copy).  The model returns the post-call state and the value the
returned reference designates. -/
def arrIndexS (v : Value) (i : Nat) : Value × Except CppError Value :=
  match v with
  | .arr es =>
    if i < es.length then (.arr es, .ok (es.getD i .null))
    else (.arr es, .error .indexOutOfRange)
  | w => (w, .error .typeAccess)

/-- The composite statement `v[index] = x`: mutable `operator[](size_t)`
followed by assignment through the returned reference, which writes the
live element of the stored vector. -/
def arrIndexAssign (v : Value) (i : Nat) (x : Value) : Value × Option CppError :=
  match v with
  | .arr es =>
    if i < es.length then (.arr (es.set i x), none)
    else (.arr es, some .indexOutOfRange)
  | w => (w, some .typeAccess)

/-- Mutable `json::operator[](int index)`: a negative index throws
`"At operator[]: index is negative"` (IndexOutOfRangeError), otherwise the
call forwards to the `size_t` overload. -/
def arrIndexIntS (v : Value) (i : Int) : Value × Except CppError Value :=
  if i < 0 then (v, .error .indexOutOfRange) else arrIndexS v i.toNat

/-- The `has_dot || has_exp` flag of `parse_number` over the scanned
substring. -/
def hasFloatMark (sub : List Char) : Bool :=
  sub.any (fun c => c = '.') || sub.any (fun c => c = 'e' || c = 'E')

/-! ### Basic order lemmas for `lexLt` -/

theorem lexLt_irrefl (a : List Char) : lexLt a a = false := by
  induction a with
  | nil => rfl
  | cons c t ih => simp [lexLt, ih]

theorem lexLt_asymm {a b : List Char} (h : lexLt a b = true) : lexLt b a = false := by
  induction a generalizing b with
  | nil =>
    cases b with
    | nil => simp [lexLt] at h
    | cons c t => rfl
  | cons c t ih =>
    cases b with
    | nil => simp [lexLt] at h
    | cons d u =>
      by_cases hcd : c < d
      · have hdc : ¬ d < c := lt_asymm hcd
        simp [lexLt, hcd, hdc, lt_irrefl]
      · by_cases hdc : d < c
        · simp [lexLt, hcd, hdc] at h
        · simp only [lexLt, if_neg hcd, if_neg hdc] at h
          simp [lexLt, hcd, hdc, ih h]

theorem eq_of_not_lexLt {a b : List Char} (h₁ : lexLt a b = false)
    (h₂ : lexLt b a = false) : a = b := by
  induction a generalizing b with
  | nil =>
    cases b with
    | nil => rfl
    | cons d u => simp [lexLt] at h₁
  | cons c t ih =>
    cases b with
    | nil => simp [lexLt] at h₂
    | cons d u =>
      by_cases hcd : c < d
      · simp [lexLt, hcd] at h₁
      · by_cases hdc : d < c
        · simp [lexLt, hdc, lt_asymm hdc] at h₂
        · have : c = d := le_antisymm (not_lt.mp hdc) (not_lt.mp hcd)
          subst this
          simp only [lexLt, lt_self_iff_false, if_false] at h₁ h₂
          exact congrArg (c :: ·) (ih h₁ h₂)

theorem lookup_insertSorted_self (kvs : List (List Char × Value)) (k : List Char)
    (x : Value) : lookupKey (insertSorted kvs k x) k = some x := by
  induction kvs with
  | nil => simp [insertSorted, lookupKey]
  | cons kv t ih =>
    obtain ⟨k', v'⟩ := kv
    by_cases h₁ : lexLt k k' = true
    · simp [insertSorted, h₁, lookupKey]
    · by_cases h₂ : lexLt k' k = true
      · have hne : k' ≠ k := by
          rintro rfl
          rw [lexLt_irrefl] at h₂
          exact Bool.noConfusion h₂
        simp [insertSorted, h₁, h₂, lookupKey, hne, ih]
      · simp [insertSorted, h₁, h₂, lookupKey]

/-! ### List and cursor toolkit -/

theorem getD_eq_headD_drop (s : List Char) (i : Nat) (d : Char) :
    s.getD i d = (s.drop i).headD d := by
  induction s generalizing i with
  | nil => cases i <;> rfl
  | cons c t ih =>
    cases i with
    | zero => rfl
    | succ n =>
      simp only [List.getD_cons_succ, List.drop_succ_cons]
      exact ih n

theorem drop_len_append (xs ys : List Char) : (xs ++ ys).drop xs.length = ys := by
  induction xs with
  | nil => rfl
  | cons x t ih => simpa using ih

theorem take_len_append (xs ys : List Char) : (xs ++ ys).take xs.length = xs := by
  induction xs with
  | nil => rfl
  | cons x t ih => simpa using ih

theorem drop_shift (s : List Char) (i m : Nat) : s.drop (i + m) = (s.drop i).drop m := by
  rw [List.drop_drop]

theorem findIdx?_append_found {p : Char → Bool} (y : Char) (ys : List Char)
    (hy : p y = true) :
    ∀ (xs : List Char) (i : Nat), (∀ x ∈ xs, p x = false) →
      List.findIdx? p (xs ++ y :: ys) i = some (i + xs.length) := by
  intro xs
  induction xs with
  | nil =>
    intro i _
    simp [List.findIdx?, hy]
  | cons x t ih =>
    intro i h
    have hx : p x = false := h x (List.mem_cons_self _ _)
    have ht : ∀ x ∈ t, p x = false := fun z hz => h z (List.mem_cons_of_mem _ hz)
    rw [List.cons_append, List.findIdx?_cons, hx]
    simp only [Bool.false_eq_true, if_false]
    rw [ih (i + 1) ht]
    congr 1
    simp
    omega

theorem takeWhile_append_all {p : Char → Bool} (xs ys : List Char)
    (h : ∀ x ∈ xs, p x = true) :
    (xs ++ ys).takeWhile p = xs ++ ys.takeWhile p := by
  induction xs with
  | nil => rfl
  | cons x t ih =>
    have hx : p x = true := h x (List.mem_cons_self _ _)
    have ht : ∀ z ∈ t, p z = true := fun z hz => h z (List.mem_cons_of_mem _ hz)
    simp [List.takeWhile_cons, hx, ih ht]

theorem takeWhile_eq_nil_of_headD {p : Char → Bool} (ys : List Char)
    (h : p (ys.headD '\x00') = false) : ys.takeWhile p = [] := by
  cases ys with
  | nil => rfl
  | cons y t =>
    have h' : p y = false := h
    simp [List.takeWhile_cons, h']

/-! ### Character class facts -/

theorem digit_ne {c : Char} (h : isDigitC c = true) (d : Char)
    (hd : isDigitC d = false) : c ≠ d := by
  rintro rfl
  rw [h] at hd
  cases hd

theorem isWS_false_of_digit {c : Char} (h : isDigitC c = true) : isWS c = false := by
  cases hw : isWS c
  · rfl
  · exfalso
    have hc : ((((c = ' ' ∨ c = '\t') ∨ c = '\n') ∨ c = '\x0d') ∨ c = '\x0b') ∨ c = '\x0c' := by
      simpa [isWS] using hw
    rcases hc with ((((rfl | rfl) | rfl) | rfl) | rfl) | rfl <;> exact absurd h (by decide)

theorem strCharOK_split {c : Char} (h : strCharOK c = true) :
    (c = '\"') = False ∧ isWS c = false := by
  have h' := h
  simp only [strCharOK, Bool.and_eq_true, Bool.not_eq_true'] at h'
  obtain ⟨⟨h₁, _⟩, h₃⟩ := h'
  constructor
  · simp only [eq_iff_iff, iff_false]
    intro he
    rw [he] at h₁
    simp at h₁
  · exact h₃

/-! ### Decimal digits -/

theorem digitChar_facts (m : Nat) (h : m < 10) :
    isDigitC (digitChar m) = true ∧ (digitChar m).toNat - 48 = m := by
  interval_cases m <;> exact ⟨by decide, by decide⟩

theorem digitsVal_append_one (xs : List Char) (c : Char) :
    digitsVal (xs ++ [c]) = digitsVal xs * 10 + (c.toNat - 48) := by
  simp [digitsVal, List.foldl_append]

theorem natToCharsAux_spec : ∀ fuel n, n < fuel →
    natToCharsAux fuel n ≠ [] ∧ (∀ c ∈ natToCharsAux fuel n, isDigitC c = true) ∧
      digitsVal (natToCharsAux fuel n) = n := by
  intro fuel
  induction fuel with
  | zero => intro n h; omega
  | succ f ih =>
    intro n h
    by_cases h10 : n < 10
    · refine ⟨by simp [natToCharsAux, h10], ?_, ?_⟩
      · intro c hc
        simp only [natToCharsAux, if_pos h10, List.mem_singleton] at hc
        subst hc
        exact (digitChar_facts n h10).1
      · simp only [natToCharsAux, if_pos h10]
        have := (digitChar_facts n h10).2
        simp [digitsVal]
        omega
    · have hrec : n / 10 < f := by omega
      obtain ⟨hne, hall, hval⟩ := ih (n / 10) hrec
      refine ⟨by simp [natToCharsAux, h10], ?_, ?_⟩
      · intro c hc
        simp only [natToCharsAux, if_neg h10, List.mem_append, List.mem_singleton] at hc
        rcases hc with hc | hc
        · exact hall c hc
        · subst hc
          exact (digitChar_facts (n % 10) (by omega)).1
      · simp only [natToCharsAux, if_neg h10]
        rw [digitsVal_append_one, hval, (digitChar_facts (n % 10) (by omega)).2]
        omega

theorem natToChars_spec (n : Nat) :
    natToChars n ≠ [] ∧ (∀ c ∈ natToChars n, isDigitC c = true) ∧
      digitsVal (natToChars n) = n :=
  natToCharsAux_spec (n + 1) n (by omega)

theorem intToChars_ne_nil (n : Int) : intToChars n ≠ [] := by
  unfold intToChars
  split
  · simp
  · exact (natToChars_spec _).1

theorem intToChars_numChars (n : Int) : ∀ c ∈ intToChars n, isNumChar c = true := by
  intro c hc
  unfold intToChars at hc
  split at hc
  · rcases List.mem_cons.mp hc with rfl | hc
    · decide
    · have := ((natToChars_spec _).2.1) c hc
      simp [isNumChar, this]
  · have := ((natToChars_spec _).2.1) c hc
    simp [isNumChar, this]

theorem intToChars_no_mark (n : Int) :
    ∀ c ∈ intToChars n, (c = '.') = False ∧ (c = 'e') = False ∧ (c = 'E') = False := by
  intro c hc
  have hdm : isDigitC c = true ∨ c = '-' := by
    unfold intToChars at hc
    split at hc
    · rcases List.mem_cons.mp hc with rfl | hc
      · exact Or.inr rfl
      · exact Or.inl (((natToChars_spec _).2.1) c hc)
    · exact Or.inl (((natToChars_spec _).2.1) c hc)
  rcases hdm with hd | rfl
  · refine ⟨?_, ?_, ?_⟩ <;> (simp only [eq_iff_iff, iff_false]; intro he) <;>
      exact (digit_ne hd _ (by decide)) he
  · refine ⟨by simp, by simp, by simp⟩

theorem stollM_intToChars (n : Int) (hlo : -(2 ^ 63) ≤ n) (hhi : n < 2 ^ 63) :
    stollM (intToChars n) = some n := by
  by_cases hneg : n < 0
  · have hd := natToChars_spec n.natAbs
    have htw : List.takeWhile isDigitC (natToChars n.natAbs) = natToChars n.natAbs :=
      List.takeWhile_eq_self_iff.mpr hd.2.1
    have hne' : (natToChars n.natAbs).isEmpty = false := by
      cases hn : natToChars n.natAbs with
      | nil => exact absurd hn hd.1
      | cons a b => rfl
    unfold intToChars
    rw [if_pos hneg]
    unfold stollM
    simp only [List.headD_cons, List.drop_succ_cons, List.drop_zero]
    simp only [show (('-' : Char) = '-') = True by simp, decide_True, Bool.true_or, if_true,
      if_pos trivial, htw, hne', Bool.false_eq_true, if_false]
    rw [hd.2.2]
    have hv : (-1 : Int) * (n.natAbs : Int) = n := by omega
    rw [hv, if_pos (by constructor <;> omega)]
  · have hd := natToChars_spec n.toNat
    have htw : List.takeWhile isDigitC (natToChars n.toNat) = natToChars n.toNat :=
      List.takeWhile_eq_self_iff.mpr hd.2.1
    have hne' : (natToChars n.toNat).isEmpty = false := by
      cases hn : natToChars n.toNat with
      | nil => exact absurd hn hd.1
      | cons a b => rfl
    obtain ⟨c, l, he⟩ : ∃ c l, natToChars n.toNat = c :: l := by
      cases hnc : natToChars n.toNat with
      | nil => exact absurd hnc hd.1
      | cons c l => exact ⟨c, l, rfl⟩
    have hc : isDigitC c = true := hd.2.1 c (he ▸ List.mem_cons_self _ _)
    have hm : (c = '-') = False := eq_false (digit_ne hc '-' (by decide))
    have hp : (c = '+') = False := eq_false (digit_ne hc '+' (by decide))
    unfold intToChars
    rw [if_neg hneg]
    unfold stollM
    rw [he]
    simp only [List.headD_cons, hm, hp, decide_False, Bool.or_self, Bool.false_eq_true,
      if_false]
    rw [← he, htw, hne']
    simp only [Bool.false_eq_true, if_false]
    rw [hd.2.2]
    have hv : (1 : Int) * (n.toNat : Int) = n := by omega
    rw [hv, if_pos (by constructor <;> omega)]

/-! ### Leaf cases of the cursor parser -/

theorem parseV_null_lit (fuel : Nat) (s : List Char) (i : Nat) (rest : List Char)
    (hf : 1 ≤ fuel) (hd : s.drop i = 'n' :: 'u' :: 'l' :: 'l' :: rest) :
    parseV fuel s i = Except.ok (Value.null, i + 4) := by
  obtain ⟨f, rfl⟩ : ∃ f, fuel = f + 1 := ⟨fuel - 1, by omega⟩
  have hg : s.getD i '\x00' = 'n' := by rw [getD_eq_headD_drop, hd]; rfl
  have ht : (s.drop i).take 4 = ['n', 'u', 'l', 'l'] := by rw [hd]; rfl
  simp only [parseV, hg]
  rw [if_pos trivial]
  unfold parse_null
  rw [if_pos ht]

theorem parseV_true_lit (fuel : Nat) (s : List Char) (i : Nat) (rest : List Char)
    (hf : 1 ≤ fuel) (hd : s.drop i = 't' :: 'r' :: 'u' :: 'e' :: rest) :
    parseV fuel s i = Except.ok (Value.bool true, i + 4) := by
  obtain ⟨f, rfl⟩ : ∃ f, fuel = f + 1 := ⟨fuel - 1, by omega⟩
  have hg : s.getD i '\x00' = 't' := by rw [getD_eq_headD_drop, hd]; rfl
  have ht : (s.drop i).take 4 = ['t', 'r', 'u', 'e'] := by rw [hd]; rfl
  simp only [parseV, hg]
  rw [if_neg (by decide)]
  unfold parse_true
  rw [if_pos ht, if_pos trivial]

theorem parseV_false_lit (fuel : Nat) (s : List Char) (i : Nat) (rest : List Char)
    (hf : 1 ≤ fuel) (hd : s.drop i = 'f' :: 'a' :: 'l' :: 's' :: 'e' :: rest) :
    parseV fuel s i = Except.ok (Value.bool false, i + 5) := by
  obtain ⟨f, rfl⟩ : ∃ f, fuel = f + 1 := ⟨fuel - 1, by omega⟩
  have hg : s.getD i '\x00' = 'f' := by rw [getD_eq_headD_drop, hd]; rfl
  have ht : (s.drop i).take 5 = ['f', 'a', 'l', 's', 'e'] := by rw [hd]; rfl
  simp only [parseV, hg]
  rw [if_neg (by decide), if_neg (by decide)]
  unfold parse_false
  rw [if_pos ht, if_pos trivial]

theorem parseV_str_lit (fuel : Nat) (s : List Char) (i : Nat) (rest content : List Char)
    (hf : 1 ≤ fuel) (hnq : ∀ c ∈ content, (c = '\"') = False)
    (hd : s.drop i = '\"' :: content ++ '\"' :: rest) :
    parseV fuel s i = Except.ok (Value.str content, i + (content.length + 2)) := by
  obtain ⟨f, rfl⟩ : ∃ f, fuel = f + 1 := ⟨fuel - 1, by omega⟩
  have hg : s.getD i '\x00' = '\"' := by rw [getD_eq_headD_drop, hd]; rfl
  have hd1 : s.drop (i + 1) = content ++ '\"' :: rest := by
    rw [drop_shift, hd]; rfl
  have hfind : List.findIdx? (fun c => c = '\"') (s.drop (i + 1)) 0 =
      some content.length := by
    rw [hd1]
    have := findIdx?_append_found (p := fun c => decide (c = '\"')) '\"' rest
      (by simp) content 0 (fun x hx => by simp [hnq x hx])
    simpa using this
  have htake : (s.drop (i + 1)).take content.length = content := by
    rw [hd1]
    exact take_len_append content _
  have hps : parse_string s i = (Value.str content, i + (content.length + 2)) := by
    simp only [parse_string]
    rw [hfind]
    simp only [htake]
    congr 1
    omega
  simp only [parseV, hg]
  rw [if_neg (by decide), if_neg (by decide), if_neg (by decide), if_pos trivial, hps]

theorem parseV_int_lit (fuel : Nat) (s : List Char) (i : Nat) (rest : List Char)
    (n : Int) (hf : 1 ≤ fuel) (hlo : -(2 ^ 63) ≤ n) (hhi : n < 2 ^ 63)
    (hd : s.drop i = intToChars n ++ rest)
    (hrest : isNumChar (rest.headD '\x00') = false) :
    parseV fuel s i = Except.ok (Value.int n, i + (intToChars n).length) := by
  obtain ⟨f, rfl⟩ : ∃ f, fuel = f + 1 := ⟨fuel - 1, by omega⟩
  obtain ⟨c, l, hcl, hhead⟩ :
      ∃ c l, intToChars n = c :: l ∧ (isDigitC c = true ∨ c = '-') := by
    unfold intToChars
    split
    · exact ⟨'-', _, rfl, Or.inr rfl⟩
    · obtain ⟨hne, hall, _⟩ := natToChars_spec n.toNat
      cases hn : natToChars n.toNat with
      | nil => exact absurd hn hne
      | cons c l => exact ⟨c, l, rfl, Or.inl (hall c (hn ▸ List.mem_cons_self _ _))⟩
  have hg : s.getD i '\x00' = c := by rw [getD_eq_headD_drop, hd, hcl]; rfl
  have hsub : (s.drop i).takeWhile isNumChar = intToChars n := by
    rw [hd, takeWhile_append_all _ _ (intToChars_numChars n),
      takeWhile_eq_nil_of_headD _ hrest, List.append_nil]
  have hnum : parse_number s i = Except.ok (Value.int n, i + (intToChars n).length) := by
    unfold parse_number
    rw [hsub]
    have hnp : ((intToChars n).any (fun c => decide (c = '.')) ||
        (intToChars n).any (fun c => decide (c = 'e') || decide (c = 'E'))) = false := by
      rw [Bool.or_eq_false_iff]
      constructor <;> rw [List.any_eq_false] <;> intro x hx <;>
        obtain ⟨h1, h2, h3⟩ := intToChars_no_mark n x hx
      · simp [h1]
      · simp [h2, h3]
    rw [if_neg (by rw [hnp]; exact Bool.false_ne_true)]
    rw [stollM_intToChars n hlo hhi]
  have hds : (isDigitC c || decide (c = '-')) = true := by
    rcases hhead with h | rfl
    · simp [h]
    · simp
  simp only [parseV, hg]
  rcases hhead with hdig | rfl
  · rw [if_neg (digit_ne hdig 'n' (by decide)), if_neg (digit_ne hdig 't' (by decide)),
      if_neg (digit_ne hdig 'f' (by decide)), if_neg (digit_ne hdig '\"' (by decide)),
      if_neg (digit_ne hdig '[' (by decide)), if_neg (digit_ne hdig '{' (by decide)),
      if_pos (by simpa using hds)]
    exact hnum
  · rw [if_neg (by decide), if_neg (by decide), if_neg (by decide), if_neg (by decide),
      if_neg (by decide), if_neg (by decide), if_pos (by decide)]
    exact hnum

/-! ### Structure facts used by the round-trip induction -/

theorem GoodbL_mem {es : List Value} (h : GoodbL es = true) :
    ∀ e ∈ es, Goodb e = true := by
  induction es with
  | nil => intro e he; cases he
  | cons v t ih =>
    intro e he
    simp only [GoodbL, Bool.and_eq_true] at h
    rcases List.mem_cons.mp he with rfl | he
    · exact h.1
    · exact ih h.2 e he

theorem GoodbO_mem {kvs : List (List Char × Value)} (h : GoodbO kvs = true) :
    ∀ kv ∈ kvs, kv.1.all strCharOK = true ∧ Goodb kv.2 = true := by
  induction kvs with
  | nil => intro kv hkv; cases hkv
  | cons p t ih =>
    intro kv hkv
    obtain ⟨k, v⟩ := p
    simp only [GoodbO, Bool.and_eq_true] at h
    rcases List.mem_cons.mp hkv with rfl | hkv
    · exact ⟨h.1.1, h.1.2⟩
    · exact ih h.2 kv hkv

theorem cost_pos (v : Value) : 1 ≤ cost v := by
  cases v <;> simp [cost]

theorem costA_pos (es : List Value) : 1 ≤ costA es := by
  cases es with
  | nil => simp [costA]
  | cons v t => simp [costA]; omega

theorem costO_pos (kvs : List (List Char × Value)) : 1 ≤ costO kvs := by
  cases kvs with
  | nil => simp [costO]
  | cons p t => obtain ⟨k, v⟩ := p; simp [costO]; omega

theorem cdump_head {v : Value} (hg : Goodb v = true) :
    ∃ c cs, cdump v = c :: cs ∧ (c = ']') = False ∧ (c = '}') = False := by
  cases v with
  | null => exact ⟨'n', _, rfl, by simp, by simp⟩
  | bool b =>
    cases b with
    | false => exact ⟨'f', _, rfl, by simp, by simp⟩
    | true => exact ⟨'t', _, rfl, by simp, by simp⟩
  | int n =>
    obtain ⟨c, l, hcl, hhead⟩ :
        ∃ c l, intToChars n = c :: l ∧ (isDigitC c = true ∨ c = '-') := by
      unfold intToChars
      split
      · exact ⟨'-', _, rfl, Or.inr rfl⟩
      · obtain ⟨hne, hall, _⟩ := natToChars_spec n.toNat
        cases hn : natToChars n.toNat with
        | nil => exact absurd hn hne
        | cons c l => exact ⟨c, l, rfl, Or.inl (hall c (hn ▸ List.mem_cons_self _ _))⟩
    refine ⟨c, l, by simpa [cdump] using hcl, ?_, ?_⟩ <;>
      (simp only [eq_iff_iff, iff_false]; intro he)
    · rcases hhead with h | h
      · exact (digit_ne h _ (by decide)) he
      · rw [h] at he; cases he
    · rcases hhead with h | h
      · exact (digit_ne h _ (by decide)) he
      · rw [h] at he; cases he
  | float q => simp [Goodb] at hg
  | str s => exact ⟨'\"', _, rfl, by simp, by simp⟩
  | arr es => exact ⟨'[', _, rfl, by simp, by simp⟩
  | obj kvs => exact ⟨'{', _, rfl, by simp, by simp⟩

theorem sizeOf_value_pos (v : Value) : 1 ≤ sizeOf v := by
  cases v <;> simp

theorem sizeOf_mem_arr {es : List Value} {e : Value} (h : e ∈ es) :
    sizeOf e < sizeOf (Value.arr es) := by
  have := List.sizeOf_lt_of_mem h
  simp only [Value.arr.sizeOf_spec]
  omega

theorem sizeOf_mem_obj {kvs : List (List Char × Value)} {k : List Char} {x : Value}
    (h : (k, x) ∈ kvs) : sizeOf x < sizeOf (Value.obj kvs) := by
  have h1 := List.sizeOf_lt_of_mem h
  have h2 : sizeOf (k, x) = 1 + sizeOf k + sizeOf x := rfl
  have h3 : 1 ≤ sizeOf k := by
    clear h h1 h2
    induction k with
    | nil => simp
    | cons c t ih => simp; omega
  simp only [Value.obj.sizeOf_spec]
  omega

theorem insertSorted_append_of_lt (acc : List (List Char × Value)) (k : List Char)
    (x : Value) (h : ∀ kv ∈ acc, lexLt kv.1 k = true) :
    insertSorted acc k x = acc ++ [(k, x)] := by
  induction acc with
  | nil => rfl
  | cons p t ih =>
    obtain ⟨k', v'⟩ := p
    have hk' : lexLt k' k = true := h (k', v') (List.mem_cons_self _ _)
    have hnk : lexLt k k' = false := lexLt_asymm hk'
    simp only [insertSorted, hnk, Bool.false_eq_true, if_false, hk', if_true]
    rw [ih (fun kv hkv => h kv (List.mem_cons_of_mem _ hkv))]
    rfl

/-! ### The array and object loops re-consume compact dumps -/

theorem parse_array_loop_step (f : Nat) (s : List Char) (i : Nat) (acc : List Value)
    (v : Value) (i1 : Nat) (hne : ¬ (s.getD i '\x00' = ']'))
    (hrun : parseV f s i = Except.ok (v, i1)) :
    parse_array_loop (f + 1) s i acc =
      parse_array_loop f s (if s.getD i1 '\x00' = ',' then i1 + 1 else i1) (acc ++ [v]) := by
  simp only [parse_array_loop]
  rw [if_neg hne, hrun]

theorem parse_object_loop_step (f : Nat) (s : List Char) (i : Nat)
    (acc : List (List Char × Value)) (k : List Char) (i1 : Nat) (v : Value) (i2 : Nat)
    (hne : ¬ (s.getD i '\x00' = '}'))
    (hkey : parseV f s i = Except.ok (Value.str k, i1))
    (hval : parseV f s (i1 + 1) = Except.ok (v, i2)) :
    parse_object_loop (f + 1) s i acc =
      parse_object_loop f s (if s.getD i2 '\x00' = ',' then i2 + 1 else i2)
        (insertSorted acc k v) := by
  simp only [parse_object_loop]
  rw [if_neg hne, hkey]
  simp only []
  rw [hval]

theorem arr_loop_spec : ∀ es : List Value, (∀ e ∈ es, Goodb e = true ∧ PSpec e) →
    ∀ fuel s i rest acc, costA es ≤ fuel →
      s.drop i = cdumpA es ++ ']' :: rest →
      parse_array_loop fuel s i acc =
        Except.ok (Value.arr (acc ++ es), i + (cdumpA es).length + 1) := by
  intro es
  induction es with
  | nil =>
    intro _ fuel s i rest acc hc hd
    obtain ⟨f, rfl⟩ : ∃ f, fuel = f + 1 :=
      ⟨fuel - 1, by have := costA_pos ([] : List Value); omega⟩
    have hg : s.getD i '\x00' = ']' := by
      rw [getD_eq_headD_drop, hd]; rfl
    simp only [parse_array_loop]
    rw [if_pos hg]
    simp [cdumpA]
  | cons e t ih =>
    intro hIH fuel s i rest acc hc hd
    obtain ⟨hge, hpe⟩ := hIH e (List.mem_cons_self _ _)
    have hcc : costA (e :: t) = 1 + cost e + costA t := rfl
    rw [hcc] at hc
    obtain ⟨f, rfl⟩ : ∃ f, fuel = f + 1 :=
      ⟨fuel - 1, by have := cost_pos e; have := costA_pos t; omega⟩
    have hf1 : cost e ≤ f := by have := costA_pos t; omega
    have hf2 : costA t ≤ f := by have := cost_pos e; omega
    obtain ⟨c0, cs0, hc0, hne1, hne2⟩ := cdump_head hge
    cases t with
    | nil =>
      have hd' : s.drop i = cdump e ++ ']' :: rest := by
        simpa [cdumpA] using hd
      have hg : s.getD i '\x00' = c0 := by
        rw [getD_eq_headD_drop, hd', hc0]; rfl
      have hrun := hpe f s i (']' :: rest) hf1 hd'
        (by rw [List.headD_cons]; decide)
      have hg1 : s.getD (i + (cdump e).length) '\x00' = ']' := by
        rw [getD_eq_headD_drop, drop_shift, hd', drop_len_append]; rfl
      rw [parse_array_loop_step f s i acc e (i + (cdump e).length)
        (by rw [hg]; simp [hne1]) hrun]
      rw [if_neg (by rw [hg1]; decide)]
      have hrec := ih (fun x hx => absurd hx (List.not_mem_nil x)) f s
        (i + (cdump e).length) rest (acc ++ [e]) (by have := cost_pos e; omega)
        (by rw [drop_shift, hd', drop_len_append]; rfl)
      rw [hrec]
      simp [cdumpA]
    | cons w t' =>
      have hd' : s.drop i = cdump e ++ ',' :: (cdumpA (w :: t') ++ ']' :: rest) := by
        have he : cdumpA (e :: w :: t') = cdump e ++ ',' :: cdumpA (w :: t') := rfl
        rw [he] at hd
        simpa [List.append_assoc] using hd
      have hg : s.getD i '\x00' = c0 := by
        rw [getD_eq_headD_drop, hd', hc0]; rfl
      have hrun := hpe f s i (',' :: (cdumpA (w :: t') ++ ']' :: rest)) hf1 hd'
        (by rw [List.headD_cons]; decide)
      have hg1 : s.getD (i + (cdump e).length) '\x00' = ',' := by
        rw [getD_eq_headD_drop, drop_shift, hd', drop_len_append]; rfl
      rw [parse_array_loop_step f s i acc e (i + (cdump e).length)
        (by rw [hg]; simp [hne1]) hrun]
      rw [if_pos hg1]
      have hdrec : s.drop (i + (cdump e).length + 1) = cdumpA (w :: t') ++ ']' :: rest := by
        rw [Nat.add_assoc, drop_shift s i ((cdump e).length + 1), hd']
        rw [show cdump e ++ ',' :: (cdumpA (w :: t') ++ ']' :: rest)
            = (cdump e ++ [',']) ++ (cdumpA (w :: t') ++ ']' :: rest) by simp]
        rw [show (cdump e).length + 1 = (cdump e ++ [',']).length by simp]
        exact drop_len_append _ _
      have hrec := ih (fun x hx => hIH x (List.mem_cons_of_mem _ hx)) f s
        (i + (cdump e).length + 1) rest (acc ++ [e]) hf2 hdrec
      rw [hrec]
      have h1 : (acc ++ [e]) ++ (w :: t') = acc ++ e :: w :: t' := by simp
      have h2 : i + (cdump e).length + 1 + (cdumpA (w :: t')).length + 1 =
          i + (cdumpA (e :: w :: t')).length + 1 := by
        have he : cdumpA (e :: w :: t') = cdump e ++ ',' :: cdumpA (w :: t') := rfl
        rw [he]
        simp
        omega
      rw [h1, h2]

theorem obj_loop_spec : ∀ kvs : List (List Char × Value),
    (∀ kv ∈ kvs, kv.1.all strCharOK = true ∧ Goodb kv.2 = true ∧ PSpec kv.2) →
    keysSorted kvs = true →
    ∀ fuel s i rest acc, costO kvs ≤ fuel →
      s.drop i = cdumpO kvs ++ '}' :: rest →
      (∀ kv' ∈ acc, ∀ kv ∈ kvs, lexLt kv'.1 kv.1 = true) →
      parse_object_loop fuel s i acc =
        Except.ok (Value.obj (acc ++ kvs), i + (cdumpO kvs).length + 1) := by
  intro kvs
  induction kvs with
  | nil =>
    intro _ _ fuel s i rest acc hc hd _
    obtain ⟨f, rfl⟩ : ∃ f, fuel = f + 1 :=
      ⟨fuel - 1, by have := costO_pos ([] : List (List Char × Value)); omega⟩
    have hg : s.getD i '\x00' = '}' := by
      rw [getD_eq_headD_drop, hd]; rfl
    simp only [parse_object_loop]
    rw [if_pos hg]
    simp [cdumpO]
  | cons kv t ih =>
    obtain ⟨k, x⟩ := kv
    intro hIH hsort fuel s i rest acc hc hd hdom
    obtain ⟨hkall, hgx, hpx⟩ := hIH (k, x) (List.mem_cons_self _ _)
    have hnq : ∀ c ∈ k, (c = '\"') = False := by
      intro c hck
      exact (strCharOK_split ((List.all_eq_true.mp hkall) c hck)).1
    have hkdom : ∀ kv' ∈ t, lexLt k kv'.1 = true := by
      have h := hsort
      simp only [keysSorted, Bool.and_eq_true, List.all_eq_true] at h
      exact h.1
    have hsort' : keysSorted t = true := by
      have h := hsort
      simp only [keysSorted, Bool.and_eq_true, List.all_eq_true] at h
      exact h.2
    have hcx : costO ((k, x) :: t) = 2 + cost x + costO t := rfl
    rw [hcx] at hc
    obtain ⟨f, rfl⟩ : ∃ f, fuel = f + 1 :=
      ⟨fuel - 1, by have := cost_pos x; have := costO_pos t; omega⟩
    have hf1 : cost x ≤ f := by have := costO_pos t; omega
    have hf2 : costO t ≤ f := by have := cost_pos x; omega
    have hins : insertSorted acc k x = acc ++ [(k, x)] :=
      insertSorted_append_of_lt acc k x
        (fun kv' hkv' => hdom kv' hkv' (k, x) (List.mem_cons_self _ _))
    cases t with
    | nil =>
      have hd' : s.drop i = '\"' :: k ++ '\"' :: (':' :: (cdump x ++ '}' :: rest)) := by
        have he : cdumpO [(k, x)] = '\"' :: k ++ '\"' :: ':' :: cdump x := rfl
        rw [he] at hd
        simpa [List.append_assoc] using hd
      have hg : s.getD i '\x00' = '\"' := by
        rw [getD_eq_headD_drop, hd']; rfl
      have hkey := parseV_str_lit f s i (':' :: (cdump x ++ '}' :: rest)) k
        (by omega) hnq hd'
      have hdx : s.drop (i + (k.length + 2) + 1) = cdump x ++ '}' :: rest := by
        rw [Nat.add_assoc, drop_shift s i ((k.length + 2) + 1), hd']
        rw [show ('\"' :: k ++ '\"' :: (':' :: (cdump x ++ '}' :: rest)))
            = ('\"' :: k ++ ['\"', ':']) ++ (cdump x ++ '}' :: rest) by simp]
        rw [show (k.length + 2) + 1 = ('\"' :: k ++ ['\"', ':']).length by simp]
        exact drop_len_append _ _
      have hval := hpx f s (i + (k.length + 2) + 1) ('}' :: rest) hf1 hdx
        (by rw [List.headD_cons]; decide)
      have hg2 : s.getD (i + (k.length + 2) + 1 + (cdump x).length) '\x00' = '}' := by
        rw [getD_eq_headD_drop, drop_shift, hdx, drop_len_append]; rfl
      rw [parse_object_loop_step f s i acc k (i + (k.length + 2)) x
        (i + (k.length + 2) + 1 + (cdump x).length) (by rw [hg]; decide) hkey hval]
      rw [if_neg (by rw [hg2]; decide), hins]
      have hrec := ih (fun p hp => absurd hp (List.not_mem_nil p)) rfl f s
        (i + (k.length + 2) + 1 + (cdump x).length) rest (acc ++ [(k, x)])
        (by have := cost_pos x; omega)
        (by rw [drop_shift, hdx, drop_len_append]; rfl)
        (fun kv' _ p hp => absurd hp (List.not_mem_nil p))
      rw [hrec]
      have h2 : i + (k.length + 2) + 1 + (cdump x).length +
          (cdumpO ([] : List (List Char × Value))).length + 1
          = i + (cdumpO [(k, x)]).length + 1 := by
        have he : cdumpO [(k, x)] = '\"' :: k ++ '\"' :: ':' :: cdump x := rfl
        rw [he]
        simp [cdumpO]
        omega
      rw [h2]
      simp
    | cons p t' =>
      have hd' : s.drop i =
          '\"' :: k ++ '\"' :: (':' :: (cdump x ++ ',' :: (cdumpO (p :: t') ++ '}' :: rest))) := by
        have he : cdumpO ((k, x) :: p :: t')
            = ('\"' :: k ++ '\"' :: ':' :: cdump x) ++ ',' :: cdumpO (p :: t') := rfl
        rw [he] at hd
        simpa [List.append_assoc] using hd
      have hg : s.getD i '\x00' = '\"' := by
        rw [getD_eq_headD_drop, hd']; rfl
      have hkey := parseV_str_lit f s i
        (':' :: (cdump x ++ ',' :: (cdumpO (p :: t') ++ '}' :: rest))) k (by omega) hnq hd'
      have hdx : s.drop (i + (k.length + 2) + 1)
          = cdump x ++ ',' :: (cdumpO (p :: t') ++ '}' :: rest) := by
        rw [Nat.add_assoc, drop_shift s i ((k.length + 2) + 1), hd']
        rw [show ('\"' :: k ++ '\"' :: (':' :: (cdump x ++ ',' :: (cdumpO (p :: t') ++ '}' :: rest))))
            = ('\"' :: k ++ ['\"', ':']) ++ (cdump x ++ ',' :: (cdumpO (p :: t') ++ '}' :: rest)) by simp]
        rw [show (k.length + 2) + 1 = ('\"' :: k ++ ['\"', ':']).length by simp]
        exact drop_len_append _ _
      have hval := hpx f s (i + (k.length + 2) + 1)
        (',' :: (cdumpO (p :: t') ++ '}' :: rest)) hf1 hdx
        (by rw [List.headD_cons]; decide)
      have hg2 : s.getD (i + (k.length + 2) + 1 + (cdump x).length) '\x00' = ',' := by
        rw [getD_eq_headD_drop, drop_shift, hdx, drop_len_append]; rfl
      rw [parse_object_loop_step f s i acc k (i + (k.length + 2)) x
        (i + (k.length + 2) + 1 + (cdump x).length) (by rw [hg]; decide) hkey hval]
      rw [if_pos hg2, hins]
      have hdrec : s.drop (i + (k.length + 2) + 1 + (cdump x).length + 1)
          = cdumpO (p :: t') ++ '}' :: rest := by
        rw [Nat.add_assoc, drop_shift s (i + (k.length + 2) + 1) ((cdump x).length + 1), hdx]
        rw [show (cdump x ++ ',' :: (cdumpO (p :: t') ++ '}' :: rest))
            = (cdump x ++ [',']) ++ (cdumpO (p :: t') ++ '}' :: rest) by simp]
        rw [show (cdump x).length + 1 = (cdump x ++ [',']).length by simp]
        exact drop_len_append _ _
      have hdom' : ∀ kv' ∈ acc ++ [(k, x)], ∀ kv ∈ p :: t', lexLt kv'.1 kv.1 = true := by
        intro kv' hkv' kv hkv
        rcases List.mem_append.mp hkv' with h' | h'
        · exact hdom kv' h' kv (List.mem_cons_of_mem _ hkv)
        · rcases List.mem_singleton.mp h' with rfl
          exact hkdom kv hkv
      have hrec := ih (fun q hq => hIH q (List.mem_cons_of_mem _ hq)) hsort'
        f s (i + (k.length + 2) + 1 + (cdump x).length + 1) rest (acc ++ [(k, x)])
        hf2 hdrec hdom'
      rw [hrec]
      have h1 : (acc ++ [(k, x)]) ++ (p :: t') = acc ++ (k, x) :: p :: t' := by simp
      have h2 : i + (k.length + 2) + 1 + (cdump x).length + 1 + (cdumpO (p :: t')).length + 1
          = i + (cdumpO ((k, x) :: p :: t')).length + 1 := by
        have he : cdumpO ((k, x) :: p :: t')
            = ('\"' :: k ++ '\"' :: ':' :: cdump x) ++ ',' :: cdumpO (p :: t') := rfl
        rw [he]
        simp
        omega
      rw [h1, h2]

/-! ### The round-trip induction -/

theorem parseV_dispatch_arr (f : Nat) (s : List Char) (i : Nat)
    (hg : s.getD i '\x00' = '[') :
    parseV (f + 1) s i = parse_array_loop f s (i + 1) [] := by
  simp only [parseV, hg]
  rfl

theorem parseV_dispatch_obj (f : Nat) (s : List Char) (i : Nat)
    (hg : s.getD i '\x00' = '{') :
    parseV (f + 1) s i = parse_object_loop f s (i + 1) [] := by
  simp only [parseV, hg]
  rfl

theorem pspec_of_sizeOf : ∀ N v, sizeOf v ≤ N → Goodb v = true → PSpec v := by
  intro N
  induction N with
  | zero =>
    intro v hsz _
    exact absurd hsz (by have := sizeOf_value_pos v; omega)
  | succ N ih =>
    intro v hsz hg
    cases v with
    | null =>
      intro fuel s i rest hc hd hrest
      exact parseV_null_lit fuel s i rest hc hd
    | bool b =>
      cases b with
      | false => exact fun fuel s i rest hc hd hrest => parseV_false_lit fuel s i rest hc hd
      | true => exact fun fuel s i rest hc hd hrest => parseV_true_lit fuel s i rest hc hd
    | int n =>
      intro fuel s i rest hc hd hrest
      have hb : -(2 ^ 63) ≤ n ∧ n < 2 ^ 63 := by simpa [Goodb] using hg
      exact parseV_int_lit fuel s i rest n hc hb.1 hb.2 hd hrest
    | float q => exact absurd hg (by simp [Goodb])
    | str cs =>
      intro fuel s i rest hc hd hrest
      have hall : ∀ c ∈ cs, strCharOK c = true :=
        List.all_eq_true.mp (by simpa [Goodb] using hg)
      have hnq : ∀ c ∈ cs, (c = '\"') = False := fun c hcd => (strCharOK_split (hall c hcd)).1
      have hd' : s.drop i = '\"' :: cs ++ '\"' :: rest := by
        rw [hd]
        simp [cdump, List.append_assoc]
      have hrun := parseV_str_lit fuel s i rest cs hc hnq hd'
      have hlen : (cdump (Value.str cs)).length = cs.length + 2 := by
        simp [cdump]
      rw [hrun, hlen]
    | arr es =>
      intro fuel s i rest hc hd hrest
      have hc' : cost (Value.arr es) = 1 + costA es := rfl
      rw [hc'] at hc
      obtain ⟨f, rfl⟩ : ∃ f, fuel = f + 1 :=
        ⟨fuel - 1, by have := costA_pos es; omega⟩
      have hg0 : s.getD i '\x00' = '[' := by
        rw [getD_eq_headD_drop, hd]; rfl
      have hgl : GoodbL es = true := by simpa [Goodb] using hg
      have hd1 : s.drop (i + 1) = cdumpA es ++ ']' :: rest := by
        rw [drop_shift, hd]
        show ((('[' :: (cdumpA es ++ [']'])) ++ rest)).drop 1 = _
        simp [List.append_assoc]
      have harr := arr_loop_spec es
        (fun e he => ⟨GoodbL_mem hgl e he,
          ih e (by have := sizeOf_mem_arr he; omega) (GoodbL_mem hgl e he)⟩)
        f s (i + 1) rest [] (by omega) hd1
      rw [parseV_dispatch_arr f s i hg0, harr]
      have h1 : ([] : List Value) ++ es = es := by simp
      have h2 : i + 1 + (cdumpA es).length + 1 = i + (cdump (Value.arr es)).length := by
        have he : cdump (Value.arr es) = '[' :: (cdumpA es ++ [']']) := rfl
        rw [he]
        simp
        omega
      rw [h1, h2]
    | obj kvs =>
      intro fuel s i rest hc hd hrest
      have hc' : cost (Value.obj kvs) = 1 + costO kvs := rfl
      rw [hc'] at hc
      obtain ⟨f, rfl⟩ : ∃ f, fuel = f + 1 :=
        ⟨fuel - 1, by have := costO_pos kvs; omega⟩
      have hg0 : s.getD i '\x00' = '{' := by
        rw [getD_eq_headD_drop, hd]; rfl
      have hgs : keysSorted kvs = true ∧ GoodbO kvs = true := by
        simpa [Goodb, Bool.and_eq_true] using hg
      have hd1 : s.drop (i + 1) = cdumpO kvs ++ '}' :: rest := by
        rw [drop_shift, hd]
        show ((('{' :: (cdumpO kvs ++ ['}'])) ++ rest)).drop 1 = _
        simp [List.append_assoc]
      have hobj := obj_loop_spec kvs
        (fun kv hkv => by
          obtain ⟨k, x⟩ := kv
          obtain ⟨h1, h2⟩ := GoodbO_mem hgs.2 (k, x) hkv
          exact ⟨h1, h2, ih x (by have := sizeOf_mem_obj hkv; omega) h2⟩)
        hgs.1 f s (i + 1) rest [] (by omega) hd1
        (fun kv' h => absurd h (List.not_mem_nil kv'))
      rw [parseV_dispatch_obj f s i hg0, hobj]
      have h1 : ([] : List (List Char × Value)) ++ kvs = kvs := by simp
      have h2 : i + 1 + (cdumpO kvs).length + 1 = i + (cdump (Value.obj kvs)).length := by
        have he : cdump (Value.obj kvs) = '{' :: (cdumpO kvs ++ ['}']) := rfl
        rw [he]
        simp
        omega
      rw [h1, h2]

theorem good_PSpec (v : Value) (hg : Goodb v = true) : PSpec v :=
  pspec_of_sizeOf (sizeOf v) v le_rfl hg

/-! ### The whitespace strip of a good dump is the compact dump -/

theorem strip_append (a b : List Char) : strip (a ++ b) = strip a ++ strip b := by
  simp [strip]

theorem strip_cons_keep {c : Char} (h : isWS c = false) (l : List Char) :
    strip (c :: l) = c :: strip l := by
  simp [strip, h]

theorem strip_cons_drop {c : Char} (h : isWS c = true) (l : List Char) :
    strip (c :: l) = strip l := by
  simp [strip, h]

theorem strip_eq_self_of (l : List Char) (h : ∀ c ∈ l, isWS c = false) : strip l = l := by
  rw [strip, List.filter_eq_self]
  intro a ha
  simp [h a ha]

theorem strip_intToChars (n : Int) : strip (intToChars n) = intToChars n := by
  apply strip_eq_self_of
  intro c hc
  unfold intToChars at hc
  split at hc
  · rcases List.mem_cons.mp hc with rfl | hc
    · decide
    · exact isWS_false_of_digit (((natToChars_spec _).2.1) c hc)
  · exact isWS_false_of_digit (((natToChars_spec _).2.1) c hc)

theorem strip_key (k : List Char) (h : k.all strCharOK = true) : strip k = k :=
  strip_eq_self_of _ (fun c hc => (strCharOK_split ((List.all_eq_true.mp h) c hc)).2)

theorem strip_dumpA_of (l : List Value) (h : ∀ e ∈ l, strip (dumpL e) = cdump e) :
    strip (dumpA l) = cdumpA l := by
  induction l with
  | nil => rfl
  | cons v t ih =>
    cases t with
    | nil => exact h v (List.mem_cons_self _ _)
    | cons w t' =>
      have hv := h v (List.mem_cons_self _ _)
      have ht := ih (fun e he => h e (List.mem_cons_of_mem _ he))
      show strip (dumpL v ++ ',' :: ' ' :: dumpA (w :: t'))
        = cdump v ++ ',' :: cdumpA (w :: t')
      rw [strip_append, hv, strip_cons_keep (by decide), strip_cons_drop (by decide), ht]

theorem strip_dumpO_of (l : List (List Char × Value))
    (hk : ∀ kv ∈ l, kv.1.all strCharOK = true)
    (h : ∀ kv ∈ l, strip (dumpL kv.2) = cdump kv.2) :
    strip (dumpO l) = cdumpO l := by
  induction l with
  | nil => rfl
  | cons kv t ih =>
    obtain ⟨k, v⟩ := kv
    have hkk := strip_key k (hk (k, v) (List.mem_cons_self _ _))
    have hv := h (k, v) (List.mem_cons_self _ _)
    cases t with
    | nil =>
      show strip ('\"' :: (k ++ '\"' :: ':' :: ' ' :: dumpL v))
        = '\"' :: (k ++ '\"' :: ':' :: cdump v)
      rw [strip_cons_keep (by decide), strip_append, hkk,
        strip_cons_keep (by decide), strip_cons_keep (by decide),
        strip_cons_drop (by decide), hv]
    | cons p t' =>
      have ht := ih (fun q hq => hk q (List.mem_cons_of_mem _ hq))
        (fun q hq => h q (List.mem_cons_of_mem _ hq))
      show strip (('\"' :: (k ++ '\"' :: ':' :: ' ' :: dumpL v)) ++ ',' :: ' ' :: dumpO (p :: t'))
        = ('\"' :: (k ++ '\"' :: ':' :: cdump v)) ++ ',' :: cdumpO (p :: t')
      rw [strip_append, strip_cons_keep (by decide), strip_append, hkk,
        strip_cons_keep (by decide), strip_cons_keep (by decide),
        strip_cons_drop (by decide), hv,
        strip_cons_keep (by decide), strip_cons_drop (by decide), ht]

theorem strip_dumpL_of_sizeOf : ∀ N v, sizeOf v ≤ N → Goodb v = true →
    strip (dumpL v) = cdump v := by
  intro N
  induction N with
  | zero =>
    intro v hsz _
    exact absurd hsz (by have := sizeOf_value_pos v; omega)
  | succ N ih =>
    intro v hsz hg
    cases v with
    | null => rfl
    | bool b => cases b <;> rfl
    | int n => exact strip_intToChars n
    | float q => exact absurd hg (by simp [Goodb])
    | str cs =>
      have hall : ∀ c ∈ cs, strCharOK c = true :=
        List.all_eq_true.mp (by simpa [Goodb] using hg)
      apply strip_eq_self_of
      intro c hc
      have hc' : c = '\"' ∨ c ∈ cs ∨ c = '\"' := by
        rcases List.mem_cons.mp hc with h | h
        · exact Or.inl h
        · rcases List.mem_append.mp h with h2 | h2
          · exact Or.inr (Or.inl h2)
          · exact Or.inr (Or.inr (List.mem_singleton.mp h2))
      rcases hc' with rfl | hc' | rfl
      · decide
      · exact (strCharOK_split (hall c hc')).2
      · decide
    | arr es =>
      have hgl : GoodbL es = true := by simpa [Goodb] using hg
      have hA := strip_dumpA_of es (fun e he =>
        ih e (by have := sizeOf_mem_arr he; omega) (GoodbL_mem hgl e he))
      show strip ('[' :: (dumpA es ++ [']'])) = '[' :: (cdumpA es ++ [']'])
      rw [strip_cons_keep (by decide), strip_append, hA,
        show strip ([']']) = [']'] from rfl]
    | obj kvs =>
      have hgs : keysSorted kvs = true ∧ GoodbO kvs = true := by
        simpa [Goodb, Bool.and_eq_true] using hg
      have hO := strip_dumpO_of kvs
        (fun kv hkv => (GoodbO_mem hgs.2 kv hkv).1)
        (fun kv hkv => by
          obtain ⟨k, x⟩ := kv
          exact ih x (by have := sizeOf_mem_obj hkv; omega)
            (GoodbO_mem hgs.2 (k, x) hkv).2)
      show strip ('{' :: (dumpO kvs ++ ['}'])) = '{' :: (cdumpO kvs ++ ['}'])
      rw [strip_cons_keep (by decide), strip_append, hO,
        show strip (['}']) = ['}'] from rfl]

theorem dumpL_ne_nil {v : Value} (hg : Goodb v = true) : dumpL v ≠ [] := by
  cases v with
  | null => simp [dumpL]
  | bool b => cases b <;> simp [dumpL]
  | int n => exact intToChars_ne_nil n
  | float q => exact absurd hg (by simp [Goodb])
  | str cs => simp [dumpL]
  | arr es => simp [dumpL]
  | obj kvs => simp [dumpL]

/-! ### Claim C1 -/

/-- Claim C1: for every Value built only from `Null`, `Bool`, `Int` (64-bit),
`Array`/`Object` of such values, and strings free of `"`, `\` and whitespace
(the `Goodb` predicate), re-parsing the dumped text reproduces the value
structurally: `parse (dump v) = v` (given fuel at least `cost v`, a bound on
the recursion depth the C++ code actually performs on this input). -/
theorem claim_C1 (v : Value) (fuel : Nat) (hg : Goodb v = true)
    (hc : cost v ≤ fuel) : parse fuel (dumpL v) = Except.ok v := by
  have hne : dumpL v ≠ [] := dumpL_ne_nil hg
  unfold parse
  rw [if_neg (by simpa [List.isEmpty_iff] using hne)]
  rw [strip_dumpL_of_sizeOf (sizeOf v) v le_rfl hg]
  have hps := good_PSpec v hg fuel (cdump v) 0 [] hc (by simp) (by decide)
  rw [hps]

/-- Witness for `claim_C1` on a concrete nested value (an object holding an
int and an array of null, bool and string). -/
theorem claim_C1_witness :
    Goodb (Value.obj [(['a'], Value.int 1),
      (['b'], Value.arr [Value.null, Value.bool true, Value.str ['x', 'y']])]) = true ∧
    cost (Value.obj [(['a'], Value.int 1),
      (['b'], Value.arr [Value.null, Value.bool true, Value.str ['x', 'y']])]) ≤ 200 ∧
    parse 200 (dumpL (Value.obj [(['a'], Value.int 1),
      (['b'], Value.arr [Value.null, Value.bool true, Value.str ['x', 'y']])])) =
      Except.ok (Value.obj [(['a'], Value.int 1),
        (['b'], Value.arr [Value.null, Value.bool true, Value.str ['x', 'y']])]) :=
  ⟨rfl, by decide,
    claim_C1 (Value.obj [(['a'], Value.int 1),
      (['b'], Value.arr [Value.null, Value.bool true, Value.str ['x', 'y']])]) 200
      rfl (by decide)⟩

/-! ### Claim C2 -/

/-- Claim C2, counterexample: `get_to<int64_t>(ref)` on a `Float` value
`2.5` does not leave `ref` (initialised to 7) unchanged — the code's
`from_json(const json&, int64_t&)` converts the double by truncation and
stores 2. -/
theorem claim_C2_counterexample :
    from_json_int64 (Value.float (Rat.mk' 5 2 (by decide) (by decide))) 7 = 2 := rfl

/-- Claim C2 as amended: for the non-numeric built-in targets (`bool`,
`std::string`, `_array`, `_object`) a mismatched tag leaves the output
reference unchanged; the numeric targets are left unchanged only when the
tag is neither `_int` nor `_float` — when the tag is the *other* numeric
tag they convert (`Float` source truncates toward zero into `int64_t`;
`Int` source widens into `double`). -/
theorem claim_C2_amended :
    (∀ j v, typeOf j ≠ Jtype.tbool → from_json_bool j v = v) ∧
    (∀ j v, typeOf j ≠ Jtype.tstring → from_json_string j v = v) ∧
    (∀ j v, typeOf j ≠ Jtype.tarray → from_json_array j v = v) ∧
    (∀ j v, typeOf j ≠ Jtype.tobject → from_json_object j v = v) ∧
    (∀ j v, typeOf j ≠ Jtype.tint → typeOf j ≠ Jtype.tfloat → from_json_int64 j v = v) ∧
    (∀ j v, typeOf j ≠ Jtype.tint → typeOf j ≠ Jtype.tfloat → from_json_double j v = v) ∧
    (∀ q v, from_json_int64 (Value.float q) v = truncQ q) ∧
    (∀ n v, from_json_double (Value.int n) v = (n : ℚ)) := by
  refine ⟨?_, ?_, ?_, ?_, ?_, ?_, ?_, ?_⟩ <;>
    intro j v <;> first
      | (intro h₁ h₂; cases j <;> first | rfl | (exfalso; exact h₁ rfl) | (exfalso; exact h₂ rfl))
      | (intro h; cases j <;> first | rfl | (exfalso; exact h rfl))
      | rfl

/-- Witness for `claim_C2_amended` at a concrete mismatched input. -/
theorem claim_C2_witness :
    typeOf (Value.int 3) ≠ Jtype.tbool ∧ from_json_bool (Value.int 3) true = true :=
  ⟨by decide, claim_C2_amended.1 (Value.int 3) true (by decide)⟩

/-! ### Claim C3 -/

/-- Claim C3, counterexample: `pop()` on an empty array does not throw at
all (and in particular not IndexOutOfRangeError): the code calls
`vector::pop_back` on an empty vector, which is undefined behaviour. -/
theorem claim_C3_counterexample :
    popS (Value.arr []) = (Value.arr [], some CppError.undefinedBeh) ∧
      CppError.undefinedBeh ≠ CppError.indexOutOfRange := by
  exact ⟨rfl, by decide⟩

/-- Claim C3 as amended: `pop()` on a non-Array throws TypeAccessError; on
an empty Array it performs no emptiness check and hits
`vector::pop_back`-on-empty undefined behaviour instead of raising
IndexOutOfRangeError. -/
theorem claim_C3_amended :
    (∀ v, typeOf v ≠ Jtype.tarray → popS v = (v, some CppError.typeAccess)) ∧
      popS (Value.arr []) = (Value.arr [], some CppError.undefinedBeh) := by
  constructor
  · intro v h
    cases v with
    | arr es => exact absurd rfl h
    | _ => rfl
  · rfl

/-- Witness for `claim_C3_amended` at a concrete non-array value. -/
theorem claim_C3_witness :
    typeOf Value.null ≠ Jtype.tarray ∧ popS Value.null = (Value.null, some CppError.typeAccess) :=
  ⟨by decide, claim_C3_amended.1 Value.null (by decide)⟩

/-! ### Claim C6 -/

/-- Claim C6: on an Object, mutable `operator[](key)` with an absent key
inserts a `Null` child at the key's sorted position and hands back a
reference to it, so that assigning through the reference stores the value
under that key; on a non-Object it throws TypeAccessError. -/
theorem claim_C6 :
    (∀ kvs k, lookupKey kvs k = none →
      objIndexS (Value.obj kvs) k =
        (Value.obj (insertSorted kvs k Value.null), Except.ok Value.null)) ∧
    (∀ kvs k x, objIndexAssign (Value.obj kvs) k x =
        (Value.obj (insertSorted kvs k x), none) ∧
      lookupKey (insertSorted kvs k x) k = some x) ∧
    (∀ v k, typeOf v ≠ Jtype.tobject → objIndexS v k = (v, Except.error CppError.typeAccess)) := by
  refine ⟨?_, ?_, ?_⟩
  · intro kvs k h
    simp [objIndexS, h]
  · intro kvs k x
    exact ⟨rfl, lookup_insertSorted_self kvs k x⟩
  · intro v k h
    cases v with
    | obj kvs => exact absurd rfl h
    | _ => rfl

/-- Witness for `claim_C6` on a concrete object with an absent key. -/
theorem claim_C6_witness :
    lookupKey [] (['x']) = none ∧
      objIndexS (Value.obj []) (['x']) =
        (Value.obj (insertSorted [] (['x']) Value.null), Except.ok Value.null) :=
  ⟨rfl, claim_C6.1 [] (['x']) rfl⟩

/-! ### Claim C9 -/

/-- Claim C9: every type-mismatched (or out-of-range) mutation throws and
leaves the value exactly as it was — each guard runs before any write. -/
theorem claim_C9 :
    (∀ v x, typeOf v ≠ Jtype.tarray → pushS v x = (v, some CppError.typeAccess)) ∧
    (∀ v, typeOf v ≠ Jtype.tarray → popS v = (v, some CppError.typeAccess)) ∧
    (∀ v k, typeOf v ≠ Jtype.tobject → removeS v k = (v, some CppError.typeAccess)) ∧
    (∀ v k, typeOf v ≠ Jtype.tobject → objIndexS v k = (v, Except.error CppError.typeAccess)) ∧
    (∀ v k x, typeOf v ≠ Jtype.tobject → objIndexAssign v k x = (v, some CppError.typeAccess)) ∧
    (∀ v i x, typeOf v ≠ Jtype.tarray → arrIndexAssign v i x = (v, some CppError.typeAccess)) ∧
    (∀ es i x, es.length ≤ i →
      arrIndexAssign (Value.arr es) i x = (Value.arr es, some CppError.indexOutOfRange)) := by
  refine ⟨?_, ?_, ?_, ?_, ?_, ?_, ?_⟩
  · intro v x h; cases v with
    | arr es => exact absurd rfl h
    | _ => rfl
  · intro v h; cases v with
    | arr es => exact absurd rfl h
    | _ => rfl
  · intro v k h; cases v with
    | obj kvs => exact absurd rfl h
    | _ => rfl
  · intro v k h; cases v with
    | obj kvs => exact absurd rfl h
    | _ => rfl
  · intro v k x h; cases v with
    | obj kvs => exact absurd rfl h
    | _ => rfl
  · intro v i x h; cases v with
    | arr es => exact absurd rfl h
    | _ => rfl
  · intro es i x h
    simp [arrIndexAssign, Nat.not_lt.mpr h]

/-- Witness for `claim_C9` at a concrete non-array value. -/
theorem claim_C9_witness :
    typeOf Value.null ≠ Jtype.tarray ∧
      pushS Value.null (Value.int 1) = (Value.null, some CppError.typeAccess) :=
  ⟨by decide, claim_C9.1 Value.null (Value.int 1) (by decide)⟩

/-! ### Claim C5 -/

theorem lexLt_trans {a b c : List Char} (h₁ : lexLt a b = true)
    (h₂ : lexLt b c = true) : lexLt a c = true := by
  induction a generalizing b c with
  | nil =>
    cases b with
    | nil => simp [lexLt] at h₁
    | cons q bs =>
      cases c with
      | nil => simp [lexLt] at h₂
      | cons r cs => rfl
  | cons p as ih =>
    cases b with
    | nil => simp [lexLt] at h₁
    | cons q bs =>
      cases c with
      | nil => simp [lexLt] at h₂
      | cons r cs =>
        by_cases hpq : p < q
        · by_cases hqr : q < r
          · simp [lexLt, lt_trans hpq hqr]
          · by_cases hrq : r < q
            · simp [lexLt, hqr, hrq] at h₂
            · have : q = r := le_antisymm (not_lt.mp hrq) (not_lt.mp hqr)
              subst this
              simp [lexLt, hpq]
        · by_cases hqp : q < p
          · simp [lexLt, hpq, hqp] at h₁
          · have : p = q := le_antisymm (not_lt.mp hqp) (not_lt.mp hpq)
            subst this
            simp only [lexLt, lt_self_iff_false, if_false] at h₁
            by_cases hqr : p < r
            · simp [lexLt, hqr]
            · by_cases hrq : r < p
              · simp [lexLt, hqr, hrq] at h₂
              · have : p = r := le_antisymm (not_lt.mp hrq) (not_lt.mp hqr)
                subst this
                simp only [lexLt, lt_self_iff_false, if_false] at h₂ ⊢
                exact ih h₁ h₂

theorem mem_insertSorted {kvs : List (List Char × Value)} {k : List Char}
    {x : Value} {kv : List Char × Value} (h : kv ∈ insertSorted kvs k x) :
    kv.1 = k ∨ kv ∈ kvs := by
  induction kvs with
  | nil =>
    simp [insertSorted] at h
    subst h
    exact Or.inl rfl
  | cons p t ih =>
    obtain ⟨k', v'⟩ := p
    by_cases h₁ : lexLt k k' = true
    · simp only [insertSorted, if_pos h₁] at h
      rcases List.mem_cons.mp h with h | h
      · subst h; exact Or.inl rfl
      · exact Or.inr h
    · by_cases h₂ : lexLt k' k = true
      · simp only [insertSorted, if_neg h₁, if_pos h₂] at h
        rcases List.mem_cons.mp h with h | h
        · subst h; exact Or.inr (List.mem_cons_self _ _)
        · rcases ih h with h' | h'
          · exact Or.inl h'
          · exact Or.inr (List.mem_cons_of_mem _ h')
      · simp only [insertSorted, if_neg h₁, if_neg h₂] at h
        rcases List.mem_cons.mp h with h | h
        · subst h; exact Or.inl rfl
        · exact Or.inr (List.mem_cons_of_mem _ h)

theorem keysSorted_insertSorted (kvs : List (List Char × Value)) (k : List Char)
    (x : Value) (h : keysSorted kvs = true) :
    keysSorted (insertSorted kvs k x) = true := by
  induction kvs with
  | nil => simp [insertSorted, keysSorted]
  | cons p t ih =>
    obtain ⟨k', v'⟩ := p
    simp only [keysSorted, Bool.and_eq_true, List.all_eq_true] at h
    obtain ⟨hdom, hts⟩ := h
    by_cases h₁ : lexLt k k' = true
    · simp only [insertSorted, if_pos h₁, keysSorted, Bool.and_eq_true, List.all_eq_true]
      refine ⟨?_, hdom, hts⟩
      intro kv hkv
      rcases List.mem_cons.mp hkv with h' | h'
      · subst h'; exact h₁
      · exact lexLt_trans h₁ (hdom kv h')
    · by_cases h₂ : lexLt k' k = true
      · simp only [insertSorted, if_neg h₁, if_pos h₂, keysSorted, Bool.and_eq_true,
          List.all_eq_true]
        refine ⟨?_, ih hts⟩
        intro kv hkv
        rcases mem_insertSorted hkv with h' | h'
        · rw [h']; exact h₂
        · exact hdom kv h'
      · have : k = k' := eq_of_not_lexLt (Bool.eq_false_iff.mpr h₁) (Bool.eq_false_iff.mpr h₂)
        subst this
        simp only [insertSorted, if_neg h₁, if_neg h₂, keysSorted, Bool.and_eq_true,
          List.all_eq_true]
        exact ⟨hdom, hts⟩

/-- Claim C5: object members are stored by ordered insertion, so any
sequence of key insertions (in any order) yields an ascending-key map, and
`dump` walks that map in storage order; concretely, parsing
`{"b": 2, "a": 1}` and dumping yields `{"a": 1, "b": 2}`. -/
theorem claim_C5 :
    (∀ kvs k x, keysSorted kvs = true → keysSorted (insertSorted kvs k x) = true) ∧
    (∀ pairs : List (List Char × Value),
      keysSorted (pairs.foldl (fun m kv => insertSorted m kv.1 kv.2) []) = true) ∧
    (parseStr 100 ("\x7b\"b\": 2, \"a\": 1\x7d")).map dump = Except.ok ("\x7b\"a\": 1, \"b\": 2\x7d") := by
  refine ⟨keysSorted_insertSorted, ?_, rfl⟩
  intro pairs
  have general : ∀ (ps : List (List Char × Value)) (m : List (List Char × Value)),
      keysSorted m = true →
      keysSorted (ps.foldl (fun m kv => insertSorted m kv.1 kv.2) m) = true := by
    intro ps
    induction ps with
    | nil => intro m hm; exact hm
    | cons p t ih =>
      intro m hm
      exact ih _ (keysSorted_insertSorted m p.1 p.2 hm)
  exact general pairs [] rfl

/-- Witness for `claim_C5` on a concrete sorted map. -/
theorem claim_C5_witness :
    keysSorted [(['a'], Value.int 1)] = true ∧
      keysSorted (insertSorted [(['a'], Value.int 1)] (['b']) (Value.int 2)) = true :=
  ⟨rfl, claim_C5.1 [(['a'], Value.int 1)] (['b']) (Value.int 2) rfl⟩

/-! ### Claim C7 -/

theorem getD_set_self {α : Type} (es : List α) (i : Nat) (x d : α)
    (h : i < es.length) : (es.set i x).getD i d = x := by
  induction es generalizing i with
  | nil => simp at h
  | cons e t ih =>
    cases i with
    | zero => rfl
    | succ n => exact ih n (by simpa using h)

/-- Claim C7: on an Array with `i < length`, `arr[i] = x` writes the live
stored element, so the write is seen both by a subsequent mutable
`arr[i]` read and by `dump`; concretely, parsing `[1, 2, 3]`, assigning
index 1 to 5, and dumping yields `[1, 5, 3]`. -/
theorem claim_C7 :
    (∀ es i x, i < es.length →
      arrIndexAssign (Value.arr es) i x = (Value.arr (es.set i x), none) ∧
      (arrIndexS (Value.arr (es.set i x)) i).2 = Except.ok x) ∧
    (parseStr 50 ("[1, 2, 3]")).map
        (fun a => dump (arrIndexAssign a 1 (Value.int 5)).1) =
      Except.ok ("[1, 5, 3]") := by
  constructor
  · intro es i x h
    refine ⟨by simp [arrIndexAssign, h], ?_⟩
    have hlen : i < (es.set i x).length := by simpa using h
    show (arrIndexS (Value.arr (es.set i x)) i).2 = Except.ok x
    simp only [arrIndexS]
    rw [if_pos hlen]
    exact congrArg Except.ok (getD_set_self es i x Value.null h)
  · rfl

/-- Witness for `claim_C7` on a concrete in-range index. -/
theorem claim_C7_witness :
    (0 : Nat) < [Value.int 1].length ∧
      arrIndexAssign (Value.arr [Value.int 1]) 0 Value.null =
        (Value.arr [Value.null], none) ∧
      (arrIndexS (Value.arr ([Value.int 1].set 0 Value.null)) 0).2 = Except.ok Value.null :=
  ⟨by decide, (claim_C7.1 [Value.int 1] 0 Value.null (by decide)).1,
    (claim_C7.1 [Value.int 1] 0 Value.null (by decide)).2⟩

/-! ### Claim C8 -/

/-- Claim C8, counterexample: parsing a text that is an unterminated string
literal does not fail with ParseError — it succeeds, taking everything after
the opening quote as the string's contents. -/
theorem claim_C8_counterexample :
    parseStr 10 ("\"abc") = Except.ok (Value.str ['a', 'b', 'c']) := rfl

/-- Claim C8 as amended: on an unterminated string literal `parse_string`
raises nothing: `str.find('"', start)` returns `npos`, the remainder of the
text becomes the string value, and the cursor wraps to `npos + 1 = 0` (so a
top-level parse returns that string; an enclosing array/object loop resumes
scanning from offset 0 instead of failing). -/
theorem claim_C8_amended :
    ∀ s fuel, ¬ ('\"' ∈ s) → 1 ≤ fuel →
      parseV fuel ('\"' :: s) 0 = Except.ok (Value.str s, 0) := by
  intro s fuel hmem hfuel
  obtain ⟨f, rfl⟩ : ∃ f, fuel = f + 1 := ⟨fuel - 1, by omega⟩
  have hfind : (s.findIdx? (fun c => c = '\"')) = none := by
    rw [List.findIdx?_eq_none_iff]
    intro c hc
    simp only [decide_eq_false_iff_not]
    rintro rfl
    exact hmem hc
  simp [parseV, parse_string, List.getD, hfind]

/-- Witness for `claim_C8_amended` at a concrete unterminated input. -/
theorem claim_C8_witness :
    ¬ ('\"' ∈ ['a', 'b', 'c']) ∧ (1 : Nat) ≤ 10 ∧
      parseV 10 ('\"' :: ['a', 'b', 'c']) 0 = Except.ok (Value.str ['a', 'b', 'c'], 0) :=
  ⟨by decide, by decide, claim_C8_amended ['a', 'b', 'c'] 10 (by decide) (by decide)⟩

/-! ### Claim C10 -/

theorem parseV_nil (fuel : Nat) : ∀ v j, parseV fuel [] 0 ≠ Except.ok (v, j) := by
  intro v j
  cases fuel with
  | zero => simp [parseV]
  | succ f => simp [parseV, parse_null, parse_true, parse_false, parse_number,
      List.getD, stollM, stodM, isNumChar]

/-- Claim C10: the top-level `parse(const std::string&)` never requires the
whole input to be consumed — whenever the cursor parser succeeds on the
whitespace-stripped text from offset 0, the top-level call returns exactly
that value, whatever (and however much) text remains beyond the final
cursor; concretely `parse("1]x")` yields `Int 1`. -/
theorem claim_C10 :
    (∀ str v j fuel, parseV fuel (strip str) 0 = Except.ok (v, j) →
      parse fuel str = Except.ok v) ∧
    parseStr 50 ("1]x") = Except.ok (Value.int 1) := by
  constructor
  · intro str v j fuel h
    unfold parse
    by_cases he : str.isEmpty
    · exfalso
      have : str = [] := by simpa [List.isEmpty_iff] using he
      subst this
      exact parseV_nil fuel v j (by simpa [strip] using h)
    · simp [he, h]
  · rfl

/-- Witness for `claim_C10` at the concrete input `"1]x"`. -/
theorem claim_C10_witness :
    parseV 50 (strip (['1', ']', 'x'])) 0 = Except.ok (Value.int 1, 1) ∧
      parse 50 (['1', ']', 'x']) = Except.ok (Value.int 1) :=
  ⟨rfl, claim_C10.1 (['1', ']', 'x']) (Value.int 1) 1 50 rfl⟩

/-! ### Claim C4 -/

/-- Claim C4: whenever `parse_number` accepts a numeric literal, the
produced tag is `Float` exactly when the scanned substring contains `.`,
`e` or `E`, and `Int` otherwise; concretely `"1"` parses to `Int 1` and
`"1.5"` parses to a `Float`. -/
theorem claim_C4 :
    (∀ s i v j, parse_number s i = Except.ok (v, j) →
      ((hasFloatMark ((s.drop i).takeWhile isNumChar) = true ∧ ∃ q, v = Value.float q) ∨
       (hasFloatMark ((s.drop i).takeWhile isNumChar) = false ∧ ∃ n, v = Value.int n))) ∧
    parseStr 50 ("1") = Except.ok (Value.int 1) ∧
    (∃ q, parseStr 50 ("1.5") = Except.ok (Value.float q)) := by
  refine ⟨?_, rfl, ⟨_, rfl⟩⟩
  intro s i v j h
  unfold parse_number at h
  set sub := (s.drop i).takeWhile isNumChar with hsub
  by_cases hm : (sub.any (fun c => c = '.') || sub.any (fun c => c = 'e' || c = 'E')) = true
  · rw [if_pos hm] at h
    left
    refine ⟨by simpa [hasFloatMark] using hm, ?_⟩
    cases hq : stodM sub with
    | none => rw [hq] at h; exact absurd h (by simp)
    | some q =>
      rw [hq] at h
      injection h with h'
      rw [Prod.mk.injEq] at h'
      exact ⟨q, h'.1.symm⟩
  · rw [if_neg hm] at h
    right
    refine ⟨by rw [hasFloatMark]; exact Bool.eq_false_iff.mpr hm, ?_⟩
    cases hq : stollM sub with
    | none => rw [hq] at h; exact absurd h (by simp)
    | some n =>
      rw [hq] at h
      injection h with h'
      rw [Prod.mk.injEq] at h'
      exact ⟨n, h'.1.symm⟩

/-- Witness for `claim_C4` at the concrete accepted literal `"1"`. -/
theorem claim_C4_witness :
    (hasFloatMark ((('1' :: []).drop 0).takeWhile isNumChar) = true ∧
      ∃ q, Value.int 1 = Value.float q) ∨
    (hasFloatMark ((('1' :: []).drop 0).takeWhile isNumChar) = false ∧
      ∃ n, Value.int 1 = Value.int n) :=
  claim_C4.1 ('1' :: []) 0 (Value.int 1) 1 rfl

end Myjson
